import Mathlib

/-!
# Verification of the kraken node-tree core (bridge/bindings/qjs/dom/node.h)

The repository's `src/` holds only the declarations of the node-tree core
(`node.h`): the node type tag enum, the `NodeInstance` fields
(`nodeType`, `parentNode`, `childNodes`, `m_document`), and the signatures of
the mutation operations (`internalAppendChild`, `internalRemoveChild`,
`internalInsertBefore`, `internalReplaceChild`, clone, text content,
`refer`/`unrefer`).  The bodies of the mutation algorithms are not in `src/`,
so they are modelled from the specification (each such definition says so in
its doc comment).  The only executable code in `src/` relevant here is the
inline `NodeInstance` constructor, which is embedded separately below.

Nodes live in an arena: a tree state is an association list from node ids
(`Nat`, standing for the C++ pointers) to node records.  A parent holds its
children as an ordered list of ids; a child points back with an optional
parent id, mirroring `NodeInstance *parentNode` /
`std::vector<NodeInstance *> childNodes`.
-/

namespace Kraken

/-- The `NodeType` enum of node.h (values 1, 3, 8, 9, 10, 11). -/
inductive NodeType where
  | ELEMENT_NODE
  | TEXT_NODE
  | COMMENT_NODE
  | DOCUMENT_NODE
  | DOCUMENT_TYPE_NODE
  | DOCUMENT_FRAGMENT_NODE
deriving DecidableEq, Repr

/-- The numeric tag each `NodeType` enumerator carries in node.h. -/
def NodeType.tag : NodeType → Nat
  | .ELEMENT_NODE => 1
  | .TEXT_NODE => 3
  | .COMMENT_NODE => 8
  | .DOCUMENT_NODE => 9
  | .DOCUMENT_TYPE_NODE => 10
  | .DOCUMENT_FRAGMENT_NODE => 11

/-- The state of one `NodeInstance`: its type tag, back-pointer to the parent,
ordered child list, document association (`m_document`), reference count, and
the textual payload carried by text-bearing nodes. -/
structure NodeData where
  nodeType : NodeType
  parentNode : Option Nat
  childNodes : List Nat
  m_document : Option Nat
  refCount : Nat
  textPayload : String
deriving DecidableEq, Repr

/-- A tree state: an association list from node ids to node records. -/
abbrev Tree := List (Nat × NodeData)

/-- Look a node up in the arena (the dereference of a `NodeInstance *`). -/
def getNode (t : Tree) (i : Nat) : Option NodeData :=
  (t.find? (fun p => p.1 == i)).map (·.2)

/-- Update the record stored under id `i` (a field assignment through a
`NodeInstance *`).  Ids not present are left untouched. -/
def updateNode (t : Tree) (i : Nat) (f : NodeData → NodeData) : Tree :=
  t.map (fun p => if p.1 == i then (p.1, f p.2) else p)

/-- The parent pointer of node `i` (`none` when detached or stale). -/
def parentOf (t : Tree) (i : Nat) : Option Nat :=
  (getNode t i).bind (·.parentNode)

/-- The ordered child list of node `i` (empty when stale). -/
def childrenOf (t : Tree) (i : Nat) : List Nat :=
  ((getNode t i).map (·.childNodes)).getD []

/-- The document association of node `i` (`m_document`). -/
def docOf (t : Tree) (i : Nat) : Option Nat :=
  (getNode t i).bind (·.m_document)

/-- A fresh id: one past the largest id in the arena. -/
def nextId (t : Tree) : Nat :=
  (t.map (·.1)).foldr max 0 + 1

/-- The inclusive chain of ancestors of `i`: `i`, its parent, grandparent, …,
bounded by `fuel` (the C++ walks raw `parentNode` pointers; in well-formed
states a fuel of the arena size covers the whole chain). -/
def ancestorsOf (fuel : Nat) (t : Tree) (i : Nat) : List Nat :=
  match fuel with
  | 0 => [i]
  | fuel + 1 =>
    i :: (match parentOf t i with
          | none => []
          | some p => ancestorsOf fuel t p)

/-- The two error kinds of the tree core (§7 of the spec). -/
inductive DOMErr where
  | HierarchyError
  | NotFoundError
deriving DecidableEq, Repr

/-! ## The mutation operations

`node.h` only declares `internalAppendChild`, `internalRemove`,
`internalRemoveChild`, `internalInsertBefore`, `internalReplaceChild`,
`ensureDetached`, `refer`/`unrefer`, `isConnected` and the text-content pair;
their bodies are not part of `src/`.  Each is modelled from the spec
(§4.2–§4.4, §7). -/

/-- Modelled from the spec: `NodeInstance::isConnected` (missing from src/).
"A node is connected iff walking ancestors reaches a live DocumentEntity
root": a node on the inclusive ancestor chain counts as a live document root
when it is registered as its own document association (the `this == document()`
idiom of the binding layer). -/
def isConnected (fuel : Nat) (t : Tree) (i : Nat) : Bool :=
  (ancestorsOf fuel t i).any (fun j => docOf t j == some j)

/-- Field update: set the document association (one step of the §4.3 walk). -/
def setDocFn (doc : Option Nat) (d : NodeData) : NodeData :=
  { d with m_document := doc }

/-- Field update: remove one occurrence of `b` from the child list. -/
def eraseChildFn (b : Nat) (d : NodeData) : NodeData :=
  { d with childNodes := d.childNodes.erase b }

/-- Field update: clear the parent back-pointer and drop the tree-ownership
reference. -/
def unlinkFn (d : NodeData) : NodeData :=
  { d with parentNode := none, refCount := d.refCount - 1 }

/-- Field update: set the parent back-pointer to `p` and take the
tree-ownership reference. -/
def linkFn (p : Nat) (d : NodeData) : NodeData :=
  { d with parentNode := some p, refCount := d.refCount + 1 }

/-- Field update: append `b` at the end of the child list. -/
def pushChildFn (b : Nat) (d : NodeData) : NodeData :=
  { d with childNodes := d.childNodes ++ [b] }

/-- Modelled from the spec (§4.3): the single pre-order subtree walk that sets
or clears the document association (`m_document`) of every node of a subtree.
The walk is fuel-bounded; the argument list holds the roots still to visit. -/
def propagateDocList : Nat → Tree → List Nat → Option Nat → Tree
  | 0, t, _, _ => t
  | _ + 1, t, [], _ => t
  | fuel + 1, t, i :: rest, doc =>
    let t1 := updateNode t i (setDocFn doc)
    let t2 := match getNode t i with
              | some d => propagateDocList fuel t1 d.childNodes doc
              | none => t1
    propagateDocList fuel t2 rest doc

/-- Modelled from the spec (§4.2 removeChild effect): `_notifyNodeRemoved`
fires first (external observers, no tree effect to model), `node` is removed
from `parent.childNodes`, `node.parentNode` is cleared, the document
association of the detached subtree is cleared when the node was connected,
and the tree-ownership reference on `node` is dropped (`unrefer`). -/
def detachEffect (t : Tree) (parent node : Nat) : Tree :=
  let wasConnected := isConnected t.length t node
  let t1 := updateNode t parent (eraseChildFn node)
  let t2 := updateNode t1 node unlinkFn
  if wasConnected then propagateDocList (t2.length + 1) t2 [node] none else t2

/-- Modelled from the spec: `NodeInstance::ensureDetached` (missing from
src/): if `node` already has a parent it is first implicitly removed from that
parent (detach-then-reattach semantics). -/
def ensureDetached (t : Tree) (node : Nat) : Tree :=
  match parentOf t node with
  | none => t
  | some p => detachEffect t p node

/-- Modelled from the spec: `NodeInstance::internalRemoveChild` (missing from
src/).  Precondition `node.parentNode == parent`, else `NotFoundError` with no
mutation; on success the detach effect runs and the removed node is
returned. -/
def internalRemoveChild (t : Tree) (parent node : Nat) :
    Tree × Except DOMErr Nat :=
  match getNode t parent, getNode t node with
  | some _, some dn =>
    if dn.parentNode = some parent then (detachEffect t parent node, .ok node)
    else (t, .error .NotFoundError)
  | _, _ => (t, .error .NotFoundError)

/-- Modelled from the spec: `NodeInstance::internalRemove` (missing from
src/): remove the node from its parent when it has one, otherwise do
nothing. -/
def internalRemove (t : Tree) (node : Nat) : Tree :=
  match parentOf t node with
  | none => t
  | some p => (internalRemoveChild t p node).1

/-- Modelled from the spec (§4.2 appendChild effect, after the checks):
detach `node` from any previous parent, append it to `parent.childNodes`, set
its back-pointer, take the tree-ownership reference (`refer`), and when
`parent` is connected propagate the document association through the inserted
subtree.  `_notifyNodeInsert` fires at the end (external observers only). -/
def appendEffect (t : Tree) (parent node : Nat) : Tree :=
  let t1 := ensureDetached t node
  let t2 := updateNode t1 node (linkFn parent)
  let t3 := updateNode t2 parent (pushChildFn node)
  if isConnected t3.length t3 parent then
    propagateDocList (t3.length + 1) t3 [node] (docOf t3 parent)
  else t3

/-- Modelled from the spec: `Node::appendChild` / `internalAppendChild`
(missing from src/).  Stale handles report `NotFoundError`; the cycle check
walks up from `parent` and fails with `HierarchyError` when `node` appears;
otherwise the append effect runs and the inserted node is returned. -/
def appendChild (t : Tree) (parent node : Nat) : Tree × Except DOMErr Nat :=
  match getNode t parent, getNode t node with
  | some _, some _ =>
    if node ∈ ancestorsOf t.length t parent then (t, .error .HierarchyError)
    else (appendEffect t parent node, .ok node)
  | _, _ => (t, .error .NotFoundError)

/-- Insert `node` immediately before the first occurrence of `ref`; when `ref`
does not occur the node goes to the end (the callers only reach this with
`ref` present). -/
def insertBeforeList (l : List Nat) (ref node : Nat) : List Nat :=
  match l with
  | [] => [node]
  | x :: xs => if x = ref then node :: x :: xs else x :: insertBeforeList xs ref node

/-- Field update: place `node` immediately before `ref` in the child list. -/
def placeChildFn (ref node : Nat) (d : NodeData) : NodeData :=
  { d with childNodes := insertBeforeList d.childNodes ref node }

/-- Modelled from the spec (§4.2 insertBefore effect with a reference child):
same detach/ownership/document effects as append, with the node placed
immediately before `ref` in `parent.childNodes`. -/
def insertEffect (t : Tree) (parent node ref : Nat) : Tree :=
  let t1 := ensureDetached t node
  let t2 := updateNode t1 node (linkFn parent)
  let t3 := updateNode t2 parent (placeChildFn ref node)
  if isConnected t3.length t3 parent then
    propagateDocList (t3.length + 1) t3 [node] (docOf t3 parent)
  else t3

/-- Modelled from the spec: `NodeInstance::internalInsertBefore` (missing from
src/).  Same cycle/reattach precondition as append; a `none` reference behaves
as append; otherwise the reference must currently be a child of `parent`,
else `NotFoundError` with no mutation. -/
def internalInsertBefore (t : Tree) (parent node : Nat) (ref : Option Nat) :
    Tree × Except DOMErr Nat :=
  match getNode t parent, getNode t node with
  | some dp, some _ =>
    if node ∈ ancestorsOf t.length t parent then (t, .error .HierarchyError)
    else
      match ref with
      | none => (appendEffect t parent node, .ok node)
      | some r =>
        if r ∈ dp.childNodes then (insertEffect t parent node r, .ok node)
        else (t, .error .NotFoundError)
  | _, _ => (t, .error .NotFoundError)

/-- Modelled from the spec: `NodeInstance::internalReplaceChild` (missing from
src/).  Precondition `oldChild.parentNode == parent`, else `NotFoundError`.
The effect is the spec's own definition — `insertBefore(parent, newChild,
oldChild)` followed by `removeChild(parent, oldChild)` as one logical step
(a failure of the insert part aborts the whole operation with no mutation) —
and the replaced (old) child is returned. -/
def internalReplaceChild (t : Tree) (parent newChild oldChild : Nat) :
    Tree × Except DOMErr Nat :=
  if parentOf t oldChild = some parent then
    let r1 := internalInsertBefore t parent newChild (some oldChild)
    match r1.2 with
    | .error e => (t, .error e)
    | .ok _ =>
      let r2 := internalRemoveChild r1.1 parent oldChild
      (r2.1, .ok oldChild)
  else (t, .error .NotFoundError)

/-- Field update: increment the reference count. -/
def referFn (d : NodeData) : NodeData :=
  { d with refCount := d.refCount + 1 }

/-- Field update: decrement the reference count. -/
def unreferFn (d : NodeData) : NodeData :=
  { d with refCount := d.refCount - 1 }

/-- Modelled from the spec: `NodeInstance::refer` (missing from src/): an
external holder pins the node. -/
def refer (t : Tree) (i : Nat) : Tree :=
  updateNode t i referFn

/-- Modelled from the spec: `NodeInstance::unrefer` (missing from src/): an
external holder releases its pin. -/
def unrefer (t : Tree) (i : Nat) : Tree :=
  updateNode t i unreferFn

/-- Modelled from the spec (§4.4): storage may be released only when the
reference count is zero and the node has no parent. -/
def reclaimable (d : NodeData) : Bool :=
  d.refCount == 0 && d.parentNode == none

/-- Modelled from the spec (§4.4): the storage-release step — every node the
release rule permits is reclaimed, no other node is touched. -/
def reclaim (t : Tree) : Tree :=
  t.filter (fun p => !reclaimable p.2)

/-- Modelled from the spec: the default `internalGetTextContent` (missing from
src/), over a list of roots: concatenation of all descendant text-bearing
nodes' payloads, depth-first, document order, fuel-bounded. -/
def textContentList : Nat → Tree → List Nat → String
  | 0, _, _ => ""
  | _ + 1, _, [] => ""
  | fuel + 1, t, c :: cs =>
    (match getNode t c with
     | none => ""
     | some d =>
       if d.nodeType = NodeType.TEXT_NODE then d.textPayload
       else textContentList fuel t d.childNodes) ++ textContentList fuel t cs

/-- Modelled from the spec: `NodeInstance::internalGetTextContent` (missing
from src/): a text-bearing node yields its payload, any other node the
depth-first concatenation over its children. -/
def internalGetTextContent (fuel : Nat) (t : Tree) (i : Nat) : String :=
  match fuel, getNode t i with
  | 0, _ => ""
  | _, none => ""
  | fuel + 1, some d =>
    if d.nodeType = NodeType.TEXT_NODE then d.textPayload
    else textContentList fuel t d.childNodes

/-- Field update: replace the text payload. -/
def setPayloadFn (s : String) (d : NodeData) : NodeData :=
  { d with textPayload := s }

/-- Field update: replace the whole child list. -/
def setChildrenFn (cs : List Nat) (d : NodeData) : NodeData :=
  { d with childNodes := cs }

/-- Modelled from the spec: `NodeInstance::internalSetTextContent` (missing
from src/): on a text-bearing node the payload is replaced directly; on any
other node all existing children are removed (one logical replace: their
parent links are cleared and the tree-ownership references dropped) and, when
the new content is non-empty, a single fresh text child holding it is
appended. -/
def internalSetTextContent (t : Tree) (i : Nat) (s : String) : Tree :=
  match getNode t i with
  | none => t
  | some d =>
    if d.nodeType = NodeType.TEXT_NODE then
      updateNode t i (setPayloadFn s)
    else
      let t1 := d.childNodes.foldl (fun acc c => updateNode acc c unlinkFn) t
      let t2 := updateNode t1 i (setChildrenFn [])
      if s = "" then t2
      else
        let me := nextId t2
        let t3 := t2 ++
          [(me, ⟨NodeType.TEXT_NODE, some i, [], docOf t2 i, 1, s⟩)]
        updateNode t3 i (setChildrenFn [me])

/-- The inline `NodeInstance` constructor exactly as written in
src/bridge/bindings/qjs/dom/node.h:

`explicit NodeInstance(Node *node, NodeType nodeType) : EventTargetInstance(node) {}`

The member initializer list mentions only the base class: the `nodeType`
member is NOT initialized (the `NodeType` parameter is unused), so the member
holds whatever indeterminate value the storage had — embedded here as the
explicit `uninit` argument.  The members with default initializers in the
class body (`parentNode{nullptr}`, `childNodes`, `m_document{nullptr}`) are
embedded faithfully. -/
def nodeInstanceCtor (uninit : NodeType) (nodeTypeArg : NodeType) : NodeData :=
  { nodeType := uninit
    parentNode := none
    childNodes := []
    m_document := none
    refCount := 0
    textPayload := "" }

/-! ## Projections and frame lemmas -/

/-- The node-type tag stored at id `i`, when the id is live. -/
def typeOf (t : Tree) (i : Nat) : Option NodeType :=
  (getNode t i).map (·.nodeType)

/-- The text payload stored at id `i`, when the id is live. -/
def textOf (t : Tree) (i : Nat) : Option String :=
  (getNode t i).map (·.textPayload)

/-- The reference count of id `i` (0 for a stale id). -/
def refCountOf (t : Tree) (i : Nat) : Nat :=
  ((getNode t i).map (·.refCount)).getD 0

/-- Whether id `i` denotes live storage. -/
def liveAt (t : Tree) (i : Nat) : Bool :=
  (getNode t i).isSome

/-- Everything of a node record except its document association. -/
def stripDoc (d : NodeData) : NodeType × Option Nat × List Nat × Nat × String :=
  (d.nodeType, d.parentNode, d.childNodes, d.refCount, d.textPayload)

/-- The document-association-free view of id `i`. -/
def nodeStruct (t : Tree) (i : Nat) : Option (NodeType × Option Nat × List Nat × Nat × String) :=
  (getNode t i).map stripDoc

/-! ## Sample states used by the witnesses and counterexamples -/

/-- Two elements: node 0 with child 1 (as after a successful
`appendChild(0, 1)`, which holds the tree-ownership reference on 1). -/
def sampleChainTree : Tree :=
  [(0, ⟨NodeType.ELEMENT_NODE, none, [1], none, 0, ""⟩),
   (1, ⟨NodeType.ELEMENT_NODE, some 0, [], none, 1, ""⟩)]

/-- Three detached elements 0, 1, 2 plus node 3 as a child of 2. -/
def sampleForestTree : Tree :=
  [(0, ⟨NodeType.ELEMENT_NODE, none, [], none, 0, ""⟩),
   (1, ⟨NodeType.ELEMENT_NODE, none, [], none, 0, ""⟩),
   (2, ⟨NodeType.ELEMENT_NODE, none, [3], none, 0, ""⟩),
   (3, ⟨NodeType.ELEMENT_NODE, some 2, [], none, 1, ""⟩)]

/-! ## Clone (C7)

`Node::cloneNode`, `traverseCloneNode` and `copyNodeValue` are declared in
node.h but their bodies are not under src/; the clone below is modelled from
the spec: a value copy of each node (type tag and text payload), recursing
over the children in order when `deep`, the copies detached, with document
association none, and no notifications. -/

/-- The pure value content of a subtree: node type, text payload, children in
order.  This is exactly what the spec's clone copies. -/
inductive PureTree where
  | mk : NodeType → String → List PureTree → PureTree

/-- The text content of a pure subtree and of a list of pure subtrees
(depth-first concatenation, text-bearing nodes contribute their payload). -/
def PureTree.text : PureTree → String
  | .mk ty pl kids =>
    if ty = NodeType.TEXT_NODE then pl else textsOf kids
where
  textsOf : List PureTree → String
    | [] => ""
    | p :: ps => p.text ++ textsOf ps

/-- The recursion fuel needed to traverse a list of pure subtrees with the
fuel discipline of `textContentList`/`extractList`. -/
def ptsFuel : List PureTree → Nat
  | [] => 0
  | .mk _ _ kids :: rest => max (ptsFuel kids) (ptsFuel rest) + 1

/-- Modelled from the spec: the value-extraction half of the clone — read the
subtrees rooted at `l` out of the arena, depth first, preserving order;
`none` when the fuel runs out or a stale id is met. -/
def extractList : Nat → Tree → List Nat → Option (List PureTree)
  | _, _, [] => some []
  | 0, _, _ :: _ => none
  | fuel + 1, t, c :: cs =>
    match getNode t c with
    | none => none
    | some d =>
      match extractList fuel t d.childNodes, extractList fuel t cs with
      | some kids, some rest =>
        some (PureTree.mk d.nodeType d.textPayload kids :: rest)
      | _, _ => none

/-- Modelled from the spec: the rebuild half of the clone
(`traverseCloneNode`): allocate a fresh copy of each pure node — type tag and
payload copied, parent the clone parent `pc`, document association none — and
append it under `pc`, recursing over the children in order. -/
def reifyList : Tree → Nat → List PureTree → Nat → Tree × Nat
  | t, next, [], _ => (t, next)
  | t, next, .mk ty pl kids :: rest, pc =>
    let me := next
    let t1 := t ++ [(me, ⟨ty, some pc, [], none, 1, pl⟩)]
    let t2 := updateNode t1 pc (pushChildFn me)
    let r1 := reifyList t2 (me + 1) kids me
    reifyList r1.1 r1.2 rest pc

/-- Modelled from the spec: `Node::cloneNode` (missing from src/): produce a
new detached node of the same type with copied value content; when `deep`,
recursively clone the full children sequence, preserving order, reparenting
the clones under the new root; document association of every cloned node is
none; no notifications fire. -/
def cloneNode (t : Tree) (src : Nat) (deep : Bool) : Tree × Option Nat :=
  match extractList (t.length + 1) t [src] with
  | some (PureTree.mk ty pl kids :: _) =>
    let me := nextId t
    let t1 := t ++ [(me, ⟨ty, none, [], none, 0, pl⟩)]
    if deep then
      let r := reifyList t1 (me + 1) kids me
      (r.1, some me)
    else (t1, some me)
  | _ => (t, none)

/-- `ids` denotes, in the arena `t`, exactly the pure subtrees `pts`. -/
inductive Repr (t : Tree) : List Nat → List PureTree → Prop where
  | nil : Repr t [] []
  | cons {i : Nat} {d : NodeData} {ids : List Nat} {ty : NodeType}
      {pl : String} {kids rest : List PureTree} :
      getNode t i = some d → d.nodeType = ty → d.textPayload = pl →
      Repr t d.childNodes kids → Repr t ids rest →
      Repr t (i :: ids) (PureTree.mk ty pl kids :: rest)

/-- An element and one text child holding `"x"`. -/
def sampleTextTree : Tree :=
  [(0, ⟨NodeType.ELEMENT_NODE, none, [1], none, 0, ""⟩),
   (1, ⟨NodeType.TEXT_NODE, some 0, [], none, 1, "x"⟩)]

/-! ## Basic arena lemmas -/

theorem getNode_nil (i : Nat) : getNode [] i = none := rfl

theorem getNode_cons (p : Nat × NodeData) (rest : Tree) (i : Nat) :
    getNode (p :: rest) i = if p.1 = i then some p.2 else getNode rest i := by
  by_cases hp : p.1 = i
  · simp [getNode, List.find?_cons_of_pos, hp]
  · simp [getNode, List.find?_cons_of_neg, hp]

theorem updateNode_cons (p : Nat × NodeData) (rest : Tree) (i : Nat)
    (f : NodeData → NodeData) :
    updateNode (p :: rest) i f =
      (if p.1 = i then (p.1, f p.2) else p) :: updateNode rest i f := by
  by_cases hp : p.1 = i <;> simp [updateNode, hp]

theorem getNode_updateNode_self {t : Tree} {i : Nat} {d : NodeData}
    (f : NodeData → NodeData) (h : getNode t i = some d) :
    getNode (updateNode t i f) i = some (f d) := by
  induction t with
  | nil => simp [getNode] at h
  | cons p rest ih =>
    rw [getNode_cons] at h
    rw [updateNode_cons]
    by_cases hp : p.1 = i
    · rw [if_pos hp] at h
      rw [if_pos hp, getNode_cons, if_pos hp]
      simp only [Option.some.injEq] at h
      rw [h]
    · rw [if_neg hp] at h
      rw [if_neg hp, getNode_cons, if_neg hp]
      exact ih h

theorem getNode_updateNode_ne {t : Tree} {i j : Nat}
    (f : NodeData → NodeData) (h : j ≠ i) :
    getNode (updateNode t i f) j = getNode t j := by
  induction t with
  | nil => simp [getNode, updateNode]
  | cons p rest ih =>
    rw [updateNode_cons, getNode_cons, getNode_cons]
    by_cases hp : p.1 = i
    · have hpj : ¬((if p.1 = i then (p.1, f p.2) else p).1 = j) := by
        rw [if_pos hp]; simpa [hp] using fun hc => h hc.symm
      rw [if_neg hpj, if_neg (by rw [hp]; exact fun hc => h hc.symm)]
      exact ih
    · rw [if_neg hp]
      by_cases hj : p.1 = j
      · rw [if_pos hj, if_pos hj]
      · rw [if_neg hj, if_neg hj]
        exact ih

theorem getNode_updateNode_none {t : Tree} {i : Nat}
    (f : NodeData → NodeData) (h : getNode t i = none) :
    getNode (updateNode t i f) i = none := by
  induction t with
  | nil => simp [getNode, updateNode]
  | cons p rest ih =>
    rw [getNode_cons] at h
    by_cases hp : p.1 = i
    · rw [if_pos hp] at h; exact absurd h (by simp)
    · rw [if_neg hp] at h
      rw [updateNode_cons, if_neg hp, getNode_cons, if_neg hp]
      exact ih h

theorem getNode_append_ne {t : Tree} {k j : Nat} {d : NodeData}
    (h : j ≠ k) : getNode (t ++ [(k, d)]) j = getNode t j := by
  induction t with
  | nil =>
    rw [List.nil_append, getNode_cons, if_neg (by exact fun hc => h hc.symm)]
  | cons p rest ih =>
    rw [List.cons_append, getNode_cons, getNode_cons]
    by_cases hj : p.1 = j
    · rw [if_pos hj, if_pos hj]
    · rw [if_neg hj, if_neg hj]
      exact ih

theorem getNode_append_self {t : Tree} {k : Nat} {d : NodeData}
    (h : getNode t k = none) : getNode (t ++ [(k, d)]) k = some d := by
  induction t with
  | nil => rw [List.nil_append, getNode_cons, if_pos rfl]
  | cons p rest ih =>
    rw [getNode_cons] at h
    by_cases hp : p.1 = k
    · rw [if_pos hp] at h; exact absurd h (by simp)
    · rw [if_neg hp] at h
      rw [List.cons_append, getNode_cons, if_neg hp]
      exact ih h

theorem parentOf_eq_nodeStruct (t : Tree) (i : Nat) :
    parentOf t i = (nodeStruct t i).bind (·.2.1) := by
  unfold parentOf nodeStruct stripDoc
  cases getNode t i <;> rfl

theorem childrenOf_eq_nodeStruct (t : Tree) (i : Nat) :
    childrenOf t i = ((nodeStruct t i).map (·.2.2.1)).getD [] := by
  unfold childrenOf nodeStruct stripDoc
  cases getNode t i <;> rfl

theorem refCountOf_eq_nodeStruct (t : Tree) (i : Nat) :
    refCountOf t i = ((nodeStruct t i).map (·.2.2.2.1)).getD 0 := by
  unfold refCountOf nodeStruct stripDoc
  cases getNode t i <;> rfl

theorem typeOf_eq_nodeStruct (t : Tree) (i : Nat) :
    typeOf t i = (nodeStruct t i).map (·.1) := by
  unfold typeOf nodeStruct stripDoc
  cases getNode t i <;> rfl

theorem textOf_eq_nodeStruct (t : Tree) (i : Nat) :
    textOf t i = (nodeStruct t i).map (·.2.2.2.2) := by
  unfold textOf nodeStruct stripDoc
  cases getNode t i <;> rfl

theorem liveAt_eq_nodeStruct (t : Tree) (i : Nat) :
    liveAt t i = (nodeStruct t i).isSome := by
  unfold liveAt nodeStruct
  cases getNode t i <;> rfl

/-- A document-association update leaves the structural view of every node
untouched. -/
theorem nodeStruct_updateNode_doc (t : Tree) (i j : Nat) (doc : Option Nat) :
    nodeStruct (updateNode t i (setDocFn doc)) j = nodeStruct t j := by
  by_cases hj : j = i
  · subst hj
    cases h : getNode t j with
    | none => unfold nodeStruct; rw [getNode_updateNode_none _ h, h]
    | some d =>
      unfold nodeStruct
      rw [getNode_updateNode_self _ h, h]
      rfl
  · unfold nodeStruct
    rw [getNode_updateNode_ne _ hj]

/-- The document-propagation walk (§4.3) changes only document associations:
the structural view of every node is preserved. -/
theorem nodeStruct_propagateDocList (fuel : Nat) :
    ∀ (t : Tree) (l : List Nat) (doc : Option Nat) (j : Nat),
      nodeStruct (propagateDocList fuel t l doc) j = nodeStruct t j := by
  induction fuel with
  | zero => intro t l doc j; rfl
  | succ fuel ih =>
    intro t l doc j
    cases l with
    | nil => rfl
    | cons i rest =>
      show nodeStruct (propagateDocList fuel _ rest doc) j = _
      rw [ih]
      cases h : getNode t i with
      | none => simp only [h]; exact nodeStruct_updateNode_doc t i j doc
      | some d =>
        simp only [h]
        rw [ih]
        exact nodeStruct_updateNode_doc t i j doc

theorem nodeStruct_condProp (c : Bool) (fuel : Nat) (t : Tree) (l : List Nat)
    (doc : Option Nat) (j : Nat) :
    nodeStruct (if c then propagateDocList fuel t l doc else t) j =
      nodeStruct t j := by
  cases c
  · rfl
  · exact nodeStruct_propagateDocList fuel t l doc j

theorem liveAt_updateNode (t : Tree) (i : Nat) (f : NodeData → NodeData) (j : Nat) :
    liveAt (updateNode t i f) j = liveAt t j := by
  by_cases hj : j = i
  · subst hj
    cases h : getNode t j with
    | none => unfold liveAt; rw [getNode_updateNode_none _ h, h]
    | some d => unfold liveAt; rw [getNode_updateNode_self _ h, h]; rfl
  · unfold liveAt; rw [getNode_updateNode_ne _ hj]

theorem parentOf_updateNode_keep (t : Tree) (i : Nat) (f : NodeData → NodeData)
    (j : Nat) (hf : ∀ d, (f d).parentNode = d.parentNode) :
    parentOf (updateNode t i f) j = parentOf t j := by
  by_cases hj : j = i
  · subst hj
    cases h : getNode t j with
    | none => unfold parentOf; rw [getNode_updateNode_none _ h, h]
    | some d =>
      unfold parentOf; rw [getNode_updateNode_self _ h, h]
      simp [hf]
  · unfold parentOf; rw [getNode_updateNode_ne _ hj]

theorem childrenOf_updateNode_keep (t : Tree) (i : Nat) (f : NodeData → NodeData)
    (j : Nat) (hf : ∀ d, (f d).childNodes = d.childNodes) :
    childrenOf (updateNode t i f) j = childrenOf t j := by
  by_cases hj : j = i
  · subst hj
    cases h : getNode t j with
    | none => unfold childrenOf; rw [getNode_updateNode_none _ h, h]
    | some d =>
      unfold childrenOf; rw [getNode_updateNode_self _ h, h]
      simp [hf]
  · unfold childrenOf; rw [getNode_updateNode_ne _ hj]

theorem typeOf_updateNode_keep (t : Tree) (i : Nat) (f : NodeData → NodeData)
    (j : Nat) (hf : ∀ d, (f d).nodeType = d.nodeType) :
    typeOf (updateNode t i f) j = typeOf t j := by
  by_cases hj : j = i
  · subst hj
    cases h : getNode t j with
    | none => unfold typeOf; rw [getNode_updateNode_none _ h, h]
    | some d =>
      unfold typeOf; rw [getNode_updateNode_self _ h, h]
      simp [hf]
  · unfold typeOf; rw [getNode_updateNode_ne _ hj]

theorem textOf_updateNode_keep (t : Tree) (i : Nat) (f : NodeData → NodeData)
    (j : Nat) (hf : ∀ d, (f d).textPayload = d.textPayload) :
    textOf (updateNode t i f) j = textOf t j := by
  by_cases hj : j = i
  · subst hj
    cases h : getNode t j with
    | none => unfold textOf; rw [getNode_updateNode_none _ h, h]
    | some d =>
      unfold textOf; rw [getNode_updateNode_self _ h, h]
      simp [hf]
  · unfold textOf; rw [getNode_updateNode_ne _ hj]

theorem refCountOf_updateNode_keep (t : Tree) (i : Nat) (f : NodeData → NodeData)
    (j : Nat) (hf : ∀ d, (f d).refCount = d.refCount) :
    refCountOf (updateNode t i f) j = refCountOf t j := by
  by_cases hj : j = i
  · subst hj
    cases h : getNode t j with
    | none => unfold refCountOf; rw [getNode_updateNode_none _ h, h]
    | some d =>
      unfold refCountOf; rw [getNode_updateNode_self _ h, h]
      simp [hf]
  · unfold refCountOf; rw [getNode_updateNode_ne _ hj]

theorem parentOf_updateNode_ne (t : Tree) (i j : Nat) (f : NodeData → NodeData)
    (hj : j ≠ i) : parentOf (updateNode t i f) j = parentOf t j := by
  unfold parentOf; rw [getNode_updateNode_ne _ hj]

theorem childrenOf_updateNode_ne (t : Tree) (i j : Nat) (f : NodeData → NodeData)
    (hj : j ≠ i) : childrenOf (updateNode t i f) j = childrenOf t j := by
  unfold childrenOf; rw [getNode_updateNode_ne _ hj]

/-- Projections out of the structural view (used to read claims through the
document-propagation walk). -/
theorem parentOf_condProp (c : Bool) (fuel : Nat) (t : Tree) (l : List Nat)
    (doc : Option Nat) (j : Nat) :
    parentOf (if c then propagateDocList fuel t l doc else t) j = parentOf t j := by
  rw [parentOf_eq_nodeStruct, nodeStruct_condProp, ← parentOf_eq_nodeStruct]

theorem childrenOf_condProp (c : Bool) (fuel : Nat) (t : Tree) (l : List Nat)
    (doc : Option Nat) (j : Nat) :
    childrenOf (if c then propagateDocList fuel t l doc else t) j = childrenOf t j := by
  rw [childrenOf_eq_nodeStruct, nodeStruct_condProp, ← childrenOf_eq_nodeStruct]

theorem refCountOf_condProp (c : Bool) (fuel : Nat) (t : Tree) (l : List Nat)
    (doc : Option Nat) (j : Nat) :
    refCountOf (if c then propagateDocList fuel t l doc else t) j = refCountOf t j := by
  rw [refCountOf_eq_nodeStruct, nodeStruct_condProp, ← refCountOf_eq_nodeStruct]

theorem typeOf_condProp (c : Bool) (fuel : Nat) (t : Tree) (l : List Nat)
    (doc : Option Nat) (j : Nat) :
    typeOf (if c then propagateDocList fuel t l doc else t) j = typeOf t j := by
  rw [typeOf_eq_nodeStruct, nodeStruct_condProp, ← typeOf_eq_nodeStruct]

theorem textOf_condProp (c : Bool) (fuel : Nat) (t : Tree) (l : List Nat)
    (doc : Option Nat) (j : Nat) :
    textOf (if c then propagateDocList fuel t l doc else t) j = textOf t j := by
  rw [textOf_eq_nodeStruct, nodeStruct_condProp, ← textOf_eq_nodeStruct]

theorem liveAt_condProp (c : Bool) (fuel : Nat) (t : Tree) (l : List Nat)
    (doc : Option Nat) (j : Nat) :
    liveAt (if c then propagateDocList fuel t l doc else t) j = liveAt t j := by
  rw [liveAt_eq_nodeStruct, nodeStruct_condProp, ← liveAt_eq_nodeStruct]

/-! ### Frame lemmas for the detach effect -/

theorem parentOf_detachEffect_self (t : Tree) (p b : Nat) :
    parentOf (detachEffect t p b) b = none := by
  simp only [detachEffect]
  rw [parentOf_condProp]
  cases h : getNode (updateNode t p (eraseChildFn b)) b with
  | none => unfold parentOf; rw [getNode_updateNode_none _ h]; rfl
  | some d => unfold parentOf; rw [getNode_updateNode_self _ h]; rfl

theorem childrenOf_detachEffect_parent (t : Tree) (p b : Nat) :
    childrenOf (detachEffect t p b) p = (childrenOf t p).erase b := by
  simp only [detachEffect]
  rw [childrenOf_condProp,
    childrenOf_updateNode_keep _ b unlinkFn p (fun d => rfl)]
  cases h : getNode t p with
  | none =>
    unfold childrenOf
    rw [getNode_updateNode_none _ h, h]
    rfl
  | some d =>
    unfold childrenOf
    rw [getNode_updateNode_self _ h, h]
    rfl

theorem parentOf_detachEffect_other (t : Tree) (p b j : Nat) (hj : j ≠ b) :
    parentOf (detachEffect t p b) j = parentOf t j := by
  simp only [detachEffect]
  rw [parentOf_condProp, parentOf_updateNode_ne _ b j unlinkFn hj,
    parentOf_updateNode_keep _ p (eraseChildFn b) j (fun d => rfl)]

theorem childrenOf_detachEffect_other (t : Tree) (p b j : Nat) (hj : j ≠ p) :
    childrenOf (detachEffect t p b) j = childrenOf t j := by
  simp only [detachEffect]
  rw [childrenOf_condProp,
    childrenOf_updateNode_keep _ b unlinkFn j (fun d => rfl),
    childrenOf_updateNode_ne _ p j (eraseChildFn b) hj]

theorem typeOf_detachEffect (t : Tree) (p b j : Nat) :
    typeOf (detachEffect t p b) j = typeOf t j := by
  simp only [detachEffect]
  rw [typeOf_condProp, typeOf_updateNode_keep _ b unlinkFn j (fun d => rfl),
    typeOf_updateNode_keep _ p (eraseChildFn b) j (fun d => rfl)]

theorem textOf_detachEffect (t : Tree) (p b j : Nat) :
    textOf (detachEffect t p b) j = textOf t j := by
  simp only [detachEffect]
  rw [textOf_condProp, textOf_updateNode_keep _ b unlinkFn j (fun d => rfl),
    textOf_updateNode_keep _ p (eraseChildFn b) j (fun d => rfl)]

theorem liveAt_detachEffect (t : Tree) (p b j : Nat) :
    liveAt (detachEffect t p b) j = liveAt t j := by
  simp only [detachEffect]
  rw [liveAt_condProp, liveAt_updateNode, liveAt_updateNode]

theorem refCountOf_detachEffect_self (t : Tree) (p b : Nat) :
    refCountOf (detachEffect t p b) b = refCountOf t b - 1 := by
  simp only [detachEffect]
  rw [refCountOf_condProp]
  have hkeep : refCountOf (updateNode t p (eraseChildFn b)) b = refCountOf t b :=
    refCountOf_updateNode_keep t p (eraseChildFn b) b (fun d => rfl)
  cases h : getNode (updateNode t p (eraseChildFn b)) b with
  | none =>
    unfold refCountOf
    rw [getNode_updateNode_none _ h]
    unfold refCountOf at hkeep
    rw [h] at hkeep
    rw [← hkeep]
    rfl
  | some d =>
    unfold refCountOf
    rw [getNode_updateNode_self _ h]
    unfold refCountOf at hkeep
    rw [h] at hkeep
    rw [← hkeep]
    rfl

theorem refCountOf_detachEffect_other (t : Tree) (p b j : Nat) (hj : j ≠ b) :
    refCountOf (detachEffect t p b) j = refCountOf t j := by
  simp only [detachEffect]
  rw [refCountOf_condProp]
  unfold refCountOf
  rw [getNode_updateNode_ne _ hj]
  have := refCountOf_updateNode_keep t p (eraseChildFn b) j (fun d => rfl)
  unfold refCountOf at this
  exact this

/-! ### Frame lemmas for `ensureDetached` -/

theorem parentOf_ensureDetached_self (t : Tree) (b : Nat) :
    parentOf (ensureDetached t b) b = none := by
  unfold ensureDetached
  cases h : parentOf t b with
  | none => exact h
  | some p => exact parentOf_detachEffect_self t p b

theorem parentOf_ensureDetached_other (t : Tree) (b j : Nat) (hj : j ≠ b) :
    parentOf (ensureDetached t b) j = parentOf t j := by
  unfold ensureDetached
  cases h : parentOf t b with
  | none => rfl
  | some p => exact parentOf_detachEffect_other t p b j hj

theorem childrenOf_ensureDetached_nonparent (t : Tree) (b j : Nat)
    (hj : parentOf t b ≠ some j) :
    childrenOf (ensureDetached t b) j = childrenOf t j := by
  unfold ensureDetached
  cases h : parentOf t b with
  | none => rfl
  | some p =>
    have : j ≠ p := by rw [h] at hj; exact fun hc => hj (by rw [hc])
    exact childrenOf_detachEffect_other t p b j this

theorem childrenOf_ensureDetached_parent (t : Tree) (b p : Nat)
    (hp : parentOf t b = some p) :
    childrenOf (ensureDetached t b) p = (childrenOf t p).erase b := by
  unfold ensureDetached
  rw [hp]
  exact childrenOf_detachEffect_parent t p b

theorem typeOf_ensureDetached (t : Tree) (b j : Nat) :
    typeOf (ensureDetached t b) j = typeOf t j := by
  unfold ensureDetached
  cases parentOf t b with
  | none => rfl
  | some p => exact typeOf_detachEffect t p b j

theorem textOf_ensureDetached (t : Tree) (b j : Nat) :
    textOf (ensureDetached t b) j = textOf t j := by
  unfold ensureDetached
  cases parentOf t b with
  | none => rfl
  | some p => exact textOf_detachEffect t p b j

theorem liveAt_ensureDetached (t : Tree) (b j : Nat) :
    liveAt (ensureDetached t b) j = liveAt t j := by
  unfold ensureDetached
  cases parentOf t b with
  | none => rfl
  | some p => exact liveAt_detachEffect t p b j

theorem refCountOf_ensureDetached_other (t : Tree) (b j : Nat) (hj : j ≠ b) :
    refCountOf (ensureDetached t b) j = refCountOf t j := by
  unfold ensureDetached
  cases parentOf t b with
  | none => rfl
  | some p => exact refCountOf_detachEffect_other t p b j hj

/-! ### Frame lemmas for the append/insert effects -/

theorem self_mem_ancestorsOf (fuel : Nat) (t : Tree) (i : Nat) :
    i ∈ ancestorsOf fuel t i := by
  cases fuel <;> unfold ancestorsOf <;> simp

theorem liveAt_ne_of_not_mem_ancestors {fuel : Nat} {t : Tree} {a b : Nat}
    (h : b ∉ ancestorsOf fuel t a) : b ≠ a := by
  intro hc
  subst hc
  exact h (self_mem_ancestorsOf fuel t b)

theorem parentOf_appendEffect_self (t : Tree) (a b : Nat)
    (hlive : liveAt t b = true) (hba : b ≠ a) :
    parentOf (appendEffect t a b) b = some a := by
  simp only [appendEffect]
  rw [parentOf_condProp, parentOf_updateNode_ne _ a b (pushChildFn b) hba]
  have hl : liveAt (ensureDetached t b) b = true := by
    rw [liveAt_ensureDetached]; exact hlive
  unfold liveAt at hl
  obtain ⟨d1, hd1⟩ := Option.isSome_iff_exists.mp hl
  unfold parentOf
  rw [getNode_updateNode_self _ hd1]
  rfl

theorem childrenOf_appendEffect_parent (t : Tree) (a b : Nat)
    (hlive : liveAt t a = true) :
    childrenOf (appendEffect t a b) a =
      childrenOf (updateNode (ensureDetached t b) b (linkFn a)) a ++ [b] := by
  simp only [appendEffect]
  rw [childrenOf_condProp]
  have hl : liveAt (updateNode (ensureDetached t b) b (linkFn a)) a = true := by
    rw [liveAt_updateNode, liveAt_ensureDetached]; exact hlive
  unfold liveAt at hl
  obtain ⟨d2, hd2⟩ := Option.isSome_iff_exists.mp hl
  unfold childrenOf
  rw [getNode_updateNode_self _ hd2, hd2]
  rfl

theorem parentOf_insertEffect_self (t : Tree) (a b r : Nat)
    (hlive : liveAt t b = true) (hba : b ≠ a) :
    parentOf (insertEffect t a b r) b = some a := by
  simp only [insertEffect]
  rw [parentOf_condProp, parentOf_updateNode_ne _ a b (placeChildFn r b) hba]
  have hl : liveAt (ensureDetached t b) b = true := by
    rw [liveAt_ensureDetached]; exact hlive
  unfold liveAt at hl
  obtain ⟨d1, hd1⟩ := Option.isSome_iff_exists.mp hl
  unfold parentOf
  rw [getNode_updateNode_self _ hd1]
  rfl

theorem childrenOf_insertEffect_parent (t : Tree) (a b r : Nat)
    (hlive : liveAt t a = true) :
    childrenOf (insertEffect t a b r) a =
      insertBeforeList
        (childrenOf (updateNode (ensureDetached t b) b (linkFn a)) a) r b := by
  simp only [insertEffect]
  rw [childrenOf_condProp]
  have hl : liveAt (updateNode (ensureDetached t b) b (linkFn a)) a = true := by
    rw [liveAt_updateNode, liveAt_ensureDetached]; exact hlive
  unfold liveAt at hl
  obtain ⟨d2, hd2⟩ := Option.isSome_iff_exists.mp hl
  unfold childrenOf
  rw [getNode_updateNode_self _ hd2, hd2]
  rfl

/-! ## The claims -/

/-- C1: for nodes `a`, `b` with `b` on the ancestor chain of `a` (in
particular `b = a`, or `b` the parent of `a` as after a successful
`appendChild(a, b)` one calls `appendChild(b, a)`), `appendChild(a, b)` fails
with `HierarchyError` and the returned tree is the input tree, completely
unchanged. -/
theorem appendChild_cycle_hierarchyError (t : Tree) (a b : Nat)
    (da db : NodeData) (ha : getNode t a = some da) (hb : getNode t b = some db)
    (hanc : b ∈ ancestorsOf t.length t a) :
    appendChild t a b = (t, .error .HierarchyError) := by
  unfold appendChild
  rw [ha, hb]
  exact if_pos hanc

/-- Witness for C1: in `sampleChainTree` node 0 is the parent of node 1, so 0
is on the ancestor chain of 1 and `appendChild(1, 0)` fails with
`HierarchyError`, the tree unchanged. -/
theorem appendChild_cycle_hierarchyError_witness :
    (0 : Nat) ∈ ancestorsOf sampleChainTree.length sampleChainTree 1 ∧
    appendChild sampleChainTree 1 0 = (sampleChainTree, .error .HierarchyError) :=
  ⟨by decide,
   appendChild_cycle_hierarchyError sampleChainTree 1 0
     ⟨NodeType.ELEMENT_NODE, some 0, [], none, 1, ""⟩
     ⟨NodeType.ELEMENT_NODE, none, [1], none, 0, ""⟩
     (by decide) (by decide) (by decide)⟩

/-- C6: for a parent `a` and node `b` with `b.parentNode == a` (and `b`
occurring at most once in `a`'s child list, the invariant state),
`removeChild(a, b)` removes `b` from `a`'s children, clears `b.parentNode`,
and returns the removed node. -/
theorem internalRemoveChild_spec (t : Tree) (a b : Nat) (da db : NodeData)
    (ha : getNode t a = some da) (hb : getNode t b = some db)
    (hpar : db.parentNode = some a)
    (honce : da.childNodes.count b ≤ 1) :
    b ∉ childrenOf (internalRemoveChild t a b).1 a ∧
    parentOf (internalRemoveChild t a b).1 b = none ∧
    (internalRemoveChild t a b).2 = .ok b := by
  have hred : internalRemoveChild t a b = (detachEffect t a b, .ok b) := by
    unfold internalRemoveChild
    rw [ha, hb]
    simp [hpar]
  rw [hred]
  refine ⟨?_, parentOf_detachEffect_self t a b, rfl⟩
  show b ∉ childrenOf (detachEffect t a b) a
  rw [childrenOf_detachEffect_parent]
  have hca : childrenOf t a = da.childNodes := by
    unfold childrenOf; rw [ha]; rfl
  rw [hca]
  intro hmem
  have h1 := List.count_erase_self b da.childNodes
  have h2 := List.count_pos_iff.mpr hmem
  omega

/-- Witness for C6: removing node 1 from its parent 0 in `sampleChainTree`. -/
theorem internalRemoveChild_spec_witness :
    1 ∉ childrenOf (internalRemoveChild sampleChainTree 0 1).1 0 ∧
    parentOf (internalRemoveChild sampleChainTree 0 1).1 1 = none ∧
    (internalRemoveChild sampleChainTree 0 1).2 = .ok 1 :=
  internalRemoveChild_spec sampleChainTree 0 1
    ⟨NodeType.ELEMENT_NODE, none, [1], none, 0, ""⟩
    ⟨NodeType.ELEMENT_NODE, some 0, [], none, 1, ""⟩
    (by decide) (by decide) (by decide) (by decide)

/-- C2: for a parent `a` and node `b` with `b` not on the ancestor chain of
`a`, `appendChild(a, b)` succeeds: afterwards `b.parentNode == a`, `b` is the
last element of `a`'s child list, and the operation returns the inserted
node. -/
theorem appendChild_success_spec (t : Tree) (a b : Nat) (da db : NodeData)
    (ha : getNode t a = some da) (hb : getNode t b = some db)
    (hcyc : b ∉ ancestorsOf t.length t a) :
    parentOf (appendChild t a b).1 b = some a ∧
    (childrenOf (appendChild t a b).1 a).getLast? = some b ∧
    (appendChild t a b).2 = .ok b := by
  have hba : b ≠ a := liveAt_ne_of_not_mem_ancestors hcyc
  have hred : appendChild t a b = (appendEffect t a b, .ok b) := by
    unfold appendChild
    rw [ha, hb]
    simp [hcyc]
  rw [hred]
  refine ⟨parentOf_appendEffect_self t a b (by unfold liveAt; rw [hb]; rfl) hba,
    ?_, rfl⟩
  show (childrenOf (appendEffect t a b) a).getLast? = some b
  rw [childrenOf_appendEffect_parent t a b (by unfold liveAt; rw [ha]; rfl)]
  exact List.getLast?_concat _

/-- Witness for C2: appending detached node 1 under node 0 in
`sampleForestTree`. -/
theorem appendChild_success_spec_witness :
    parentOf (appendChild sampleForestTree 0 1).1 1 = some 0 ∧
    (childrenOf (appendChild sampleForestTree 0 1).1 0).getLast? = some 1 ∧
    (appendChild sampleForestTree 0 1).2 = .ok 1 :=
  appendChild_success_spec sampleForestTree 0 1
    ⟨NodeType.ELEMENT_NODE, none, [], none, 0, ""⟩
    ⟨NodeType.ELEMENT_NODE, none, [], none, 0, ""⟩
    (by decide) (by decide) (by decide)

/-- C3 (amended): for `b` with `b.parentNode == a1`, a target parent
`a2 ≠ a1` for which the append is permitted (`b` not on `a2`'s ancestor
chain), and `b` occurring at most once in `a1`'s children, after
`appendChild(a2, b)` the node has `parentNode == a2` and no longer occurs in
`a1`'s child list. -/
theorem appendChild_reattach_spec (t : Tree) (a1 a2 b : Nat)
    (d1 d2 db : NodeData)
    (h1 : getNode t a1 = some d1) (h2 : getNode t a2 = some d2)
    (hb : getNode t b = some db)
    (hpar : db.parentNode = some a1)
    (hne : a1 ≠ a2)
    (honce : d1.childNodes.count b ≤ 1)
    (hcyc : b ∉ ancestorsOf t.length t a2) :
    parentOf (appendChild t a2 b).1 b = some a2 ∧
    b ∉ childrenOf (appendChild t a2 b).1 a1 ∧
    (appendChild t a2 b).2 = .ok b := by
  have hba : b ≠ a2 := liveAt_ne_of_not_mem_ancestors hcyc
  have hred : appendChild t a2 b = (appendEffect t a2 b, .ok b) := by
    unfold appendChild
    rw [h2, hb]
    simp [hcyc]
  rw [hred]
  refine ⟨parentOf_appendEffect_self t a2 b (by unfold liveAt; rw [hb]; rfl) hba,
    ?_, rfl⟩
  show b ∉ childrenOf (appendEffect t a2 b) a1
  simp only [appendEffect]
  rw [childrenOf_condProp, childrenOf_updateNode_ne _ a2 a1 (pushChildFn b) hne,
    childrenOf_updateNode_keep _ b (linkFn a2) a1 (fun d => rfl)]
  have hp : parentOf t b = some a1 := by
    unfold parentOf; rw [hb]; exact hpar
  rw [childrenOf_ensureDetached_parent t b a1 hp]
  have hca : childrenOf t a1 = d1.childNodes := by
    unfold childrenOf; rw [h1]; rfl
  rw [hca]
  intro hmem
  have hc1 := List.count_erase_self b d1.childNodes
  have hc2 := List.count_pos_iff.mpr hmem
  omega

/-- Witness for C3's amended statement: node 3 (child of 2) re-appended under
node 0 in `sampleForestTree`. -/
theorem appendChild_reattach_spec_witness :
    parentOf (appendChild sampleForestTree 0 3).1 3 = some 0 ∧
    3 ∉ childrenOf (appendChild sampleForestTree 0 3).1 2 ∧
    (appendChild sampleForestTree 0 3).2 = .ok 3 :=
  appendChild_reattach_spec sampleForestTree 2 0 3
    ⟨NodeType.ELEMENT_NODE, none, [3], none, 0, ""⟩
    ⟨NodeType.ELEMENT_NODE, none, [], none, 0, ""⟩
    ⟨NodeType.ELEMENT_NODE, some 2, [], none, 1, ""⟩
    (by decide) (by decide) (by decide) (by decide) (by decide) (by decide)
    (by decide)

/-- Counterexample to C3 as stated: with A1 = A2 the operation is permitted —
in `sampleChainTree`, node 1 has parent 0 and `appendChild(0, 1)` succeeds —
yet afterwards node 1 still occurs in node 0's child list, so "B is absent
from A1's children" fails. -/
theorem appendChild_reattach_counterexample :
    parentOf sampleChainTree 1 = some 0 ∧
    (appendChild sampleChainTree 0 1).2 = .ok 1 ∧
    parentOf (appendChild sampleChainTree 0 1).1 1 = some 0 ∧
    1 ∈ childrenOf (appendChild sampleChainTree 0 1).1 0 :=
  ⟨by decide, rfl, by decide, by decide⟩

/-- C4 (amended): provided the inserted node `x` is live and not on the
ancestor chain of `a` (otherwise the cycle check fires first, with
`HierarchyError`), `insertBefore(a, x, some r)` with `r` not a child of `a`
fails with `NotFoundError` and leaves the tree unchanged; and
`insertBefore(a, x, none)` is the same operation as `appendChild(a, x)` on
every input. -/
theorem internalInsertBefore_notFound_and_appendEquiv (t : Tree) (a x r : Nat)
    (da dx : NodeData) (ha : getNode t a = some da) (hx : getNode t x = some dx)
    (hcyc : x ∉ ancestorsOf t.length t a)
    (hr : r ∉ da.childNodes) :
    internalInsertBefore t a x (some r) = (t, .error .NotFoundError) ∧
    ∀ (u : Tree) (p n : Nat), internalInsertBefore u p n none = appendChild u p n := by
  constructor
  · unfold internalInsertBefore
    rw [ha, hx]
    simp [hcyc, hr]
  · intro u p n
    unfold internalInsertBefore appendChild
    rfl

/-- Witness for C4's amended statement: node 5 is not a child of node 0 in
`sampleChainTree`, and inserting the (non-ancestral) node 1 before it fails
with `NotFoundError`. -/
theorem internalInsertBefore_notFound_witness :
    internalInsertBefore sampleChainTree 0 1 (some 5) =
      (sampleChainTree, .error .NotFoundError) :=
  (internalInsertBefore_notFound_and_appendEquiv sampleChainTree 0 1 5
    ⟨NodeType.ELEMENT_NODE, none, [1], none, 0, ""⟩
    ⟨NodeType.ELEMENT_NODE, some 0, [], none, 1, ""⟩
    (by decide) (by decide) (by decide) (by decide)).1

/-- Counterexample to C4 as stated: node 5 is not a child of node 1, yet
`insertBefore(1, 0, some 5)` fails with `HierarchyError`, not
`NotFoundError`, because the inserted node 0 is an ancestor of the parent 1
and the cycle check runs first. -/
theorem internalInsertBefore_counterexample :
    5 ∉ childrenOf sampleChainTree 1 ∧
    internalInsertBefore sampleChainTree 1 0 (some 5) =
      (sampleChainTree, .error .HierarchyError) :=
  ⟨by decide, rfl⟩

/-- C9: the claim says the `NodeInstance(Node*, NodeType)` constructor sets
the node's `nodeType` to its argument.  The inline constructor in node.h does
not: its initializer list omits the `nodeType` member, so the member keeps the
indeterminate contents of its storage.  Evaluating the embedded constructor:
when the storage happens to hold `ELEMENT_NODE` and the argument is
`TEXT_NODE`, the constructed node's `nodeType` is not `TEXT_NODE`. -/
theorem nodeInstanceCtor_ignores_argument :
    (nodeInstanceCtor NodeType.ELEMENT_NODE NodeType.TEXT_NODE).nodeType ≠
      NodeType.TEXT_NODE := by decide

/-- A node whose reference count is positive, or which still has a parent, is
never removed by the storage-release step (§4.4). -/
theorem getNode_reclaim_of_kept (u : Tree) (j : Nat) (dj : NodeData)
    (h : getNode u j = some dj)
    (hkeep : 0 < dj.refCount ∨ dj.parentNode ≠ none) :
    getNode (reclaim u) j = some dj := by
  have hrec : reclaimable dj = false := by
    unfold reclaimable
    rcases hkeep with h1 | h2
    · have : (dj.refCount == 0) = false := by simp; omega
      rw [this, Bool.false_and]
    · have : (dj.parentNode == none) = false := by simp [h2]
      rw [this, Bool.and_false]
  induction u with
  | nil => simp [getNode] at h
  | cons p rest ih =>
    rw [getNode_cons] at h
    by_cases hp : p.1 = j
    · rw [if_pos hp] at h
      have hj2 : p.2 = dj := by injection h
      unfold reclaim
      rw [List.filter_cons]
      have hkb : (!reclaimable p.2) = true := by rw [hj2, hrec]; rfl
      rw [if_pos hkb, getNode_cons, if_pos hp, hj2]
    · rw [if_neg hp] at h
      unfold reclaim
      rw [List.filter_cons]
      by_cases hkp : (!reclaimable p.2) = true
      · rw [if_pos hkp, getNode_cons, if_neg hp]
        exact ih h
      · rw [if_neg hkp]
        exact ih h

/-- C10: after `refer(n)` followed by `remove(n)` the node stays alive with a
positive reference count, survives the storage-release step, and can be
re-appended under any live parent it is not an ancestor of; and in general the
release step never reclaims a node with a positive reference count or with a
parent.  (The hypothesis `hedge` is the tree-ownership invariant: a node that
has a parent carries the tree's reference.) -/
theorem refer_remove_safety (t : Tree) (n : Nat) (d : NodeData)
    (hn : getNode t n = some d)
    (hedge : d.parentNode = none ∨ 1 ≤ d.refCount) :
    1 ≤ refCountOf (internalRemove (refer t n) n) n ∧
    liveAt (internalRemove (refer t n) n) n = true ∧
    (∃ dr, getNode (reclaim (internalRemove (refer t n) n)) n = some dr) ∧
    (∀ p dp, getNode (internalRemove (refer t n) n) p = some dp →
      n ∉ ancestorsOf (internalRemove (refer t n) n).length
            (internalRemove (refer t n) n) p →
      (appendChild (internalRemove (refer t n) n) p n).2 = .ok n) ∧
    (∀ (u : Tree) (j : Nat) (dj : NodeData), getNode u j = some dj →
      0 < dj.refCount ∨ dj.parentNode ≠ none →
      getNode (reclaim u) j = some dj) := by
  have hrefn : getNode (refer t n) n = some (referFn d) :=
    getNode_updateNode_self _ hn
  have hpt1 : parentOf (refer t n) n = d.parentNode := by
    unfold parentOf
    rw [hrefn]
    rfl
  have hrct1 : refCountOf (refer t n) n = d.refCount + 1 := by
    unfold refCountOf
    rw [hrefn]
    rfl
  have hlivet1 : liveAt (refer t n) n = true := by
    unfold liveAt
    rw [hrefn]
    rfl
  have key : 1 ≤ refCountOf (internalRemove (refer t n) n) n ∧
      liveAt (internalRemove (refer t n) n) n = true := by
    cases hd : d.parentNode with
    | none =>
      have ht' : internalRemove (refer t n) n = refer t n := by
        unfold internalRemove
        rw [hpt1, hd]
      rw [ht', hrct1, hlivet1]
      exact ⟨by omega, rfl⟩
    | some p =>
      cases hgp : getNode (refer t n) p with
      | none =>
        have ht' : internalRemove (refer t n) n = refer t n := by
          unfold internalRemove
          rw [hpt1, hd]
          show (internalRemoveChild (refer t n) p n).1 = refer t n
          unfold internalRemoveChild
          rw [hgp]
        rw [ht', hrct1, hlivet1]
        exact ⟨by omega, rfl⟩
      | some dp' =>
        have hpar : (referFn d).parentNode = some p := by
          show d.parentNode = some p
          exact hd
        have ht' : internalRemove (refer t n) n = detachEffect (refer t n) p n := by
          unfold internalRemove
          rw [hpt1, hd]
          show (internalRemoveChild (refer t n) p n).1 = detachEffect (refer t n) p n
          unfold internalRemoveChild
          rw [hgp, hrefn]
          simp [hpar]
        have hrc1 : 1 ≤ d.refCount := by
          rcases hedge with h1 | h2
          · rw [hd] at h1; exact absurd h1 (by simp)
          · exact h2
        constructor
        · rw [ht', refCountOf_detachEffect_self, hrct1]
          omega
        · rw [ht', liveAt_detachEffect, hlivet1]
  obtain ⟨hrc, hlive⟩ := key
  unfold liveAt at hlive
  obtain ⟨dr, hdr⟩ := Option.isSome_iff_exists.mp hlive
  have hdrrc : 0 < dr.refCount := by
    have : refCountOf (internalRemove (refer t n) n) n = dr.refCount := by
      unfold refCountOf
      rw [hdr]
      rfl
    rw [this] at hrc
    omega
  refine ⟨hrc, by unfold liveAt; rw [hdr]; rfl,
    ⟨dr, getNode_reclaim_of_kept _ _ _ hdr (Or.inl hdrrc)⟩, ?_,
    getNode_reclaim_of_kept⟩
  intro p dp hp hcyc
  unfold appendChild
  rw [hp, hdr]
  simp [hcyc]

/-- Witness for C10: pin node 1 of `sampleChainTree`, remove it, and observe
it alive (positive reference count) and re-appendable under node 0. -/
theorem refer_remove_safety_witness :
    1 ≤ refCountOf (internalRemove (refer sampleChainTree 1) 1) 1 ∧
    liveAt (internalRemove (refer sampleChainTree 1) 1) 1 = true ∧
    (appendChild (internalRemove (refer sampleChainTree 1) 1) 0 1).2 = .ok 1 :=
  have h := refer_remove_safety sampleChainTree 1
    ⟨NodeType.ELEMENT_NODE, some 0, [], none, 1, ""⟩ (by decide)
    (Or.inr (by decide))
  ⟨h.1, h.2.1,
   h.2.2.2.1 0 ⟨NodeType.ELEMENT_NODE, none, [], none, 0, ""⟩
     (by decide) (by decide)⟩

/-! ### Fresh-id and fold lemmas (for `internalSetTextContent`) -/

theorem foldr_max_ge (l : List Nat) (a : Nat) (h : a ∈ l) :
    a ≤ l.foldr max 0 := by
  induction l with
  | nil => simp at h
  | cons x xs ih =>
    rcases List.mem_cons.mp h with h1 | h2
    · subst h1
      exact le_max_left _ _
    · exact le_trans (ih h2) (le_max_right _ _)

theorem lt_nextId_of_getNode_some {t : Tree} {i : Nat} {d : NodeData}
    (h : getNode t i = some d) : i < nextId t := by
  unfold nextId
  have hmem : i ∈ t.map (·.1) := by
    unfold getNode at h
    cases hf : t.find? (fun p => p.1 == i) with
    | none => rw [hf] at h; exact absurd h (by simp)
    | some pr =>
      have hm := List.mem_of_find?_eq_some hf
      have hbeq := List.find?_some hf
      have hpr : pr.1 = i := by simpa using hbeq
      exact hpr ▸ List.mem_map_of_mem (·.1) hm
  have := foldr_max_ge _ _ hmem
  omega

theorem getNode_ge_nextId_none (t : Tree) {j : Nat} (hj : nextId t ≤ j) :
    getNode t j = none := by
  cases h : getNode t j with
  | none => rfl
  | some d =>
    have := lt_nextId_of_getNode_some h
    omega

theorem map_fst_updateNode (t : Tree) (i : Nat) (f : NodeData → NodeData) :
    (updateNode t i f).map (·.1) = t.map (·.1) := by
  induction t with
  | nil => rfl
  | cons p rest ih =>
    rw [updateNode_cons, List.map_cons, List.map_cons, ih]
    by_cases hp : p.1 = i
    · rw [if_pos hp]
    · rw [if_neg hp]

theorem nextId_updateNode (t : Tree) (i : Nat) (f : NodeData → NodeData) :
    nextId (updateNode t i f) = nextId t := by
  unfold nextId
  rw [map_fst_updateNode]

theorem nextId_foldl_unlink (cs : List Nat) : ∀ (t : Tree),
    nextId (cs.foldl (fun acc c => updateNode acc c unlinkFn) t) = nextId t := by
  induction cs with
  | nil => intro t; rfl
  | cons c cs ih =>
    intro t
    rw [List.foldl_cons, ih, nextId_updateNode]

theorem liveAt_foldl_unlink (cs : List Nat) : ∀ (t : Tree) (j : Nat),
    liveAt (cs.foldl (fun acc c => updateNode acc c unlinkFn) t) j = liveAt t j := by
  induction cs with
  | nil => intro t j; rfl
  | cons c cs ih =>
    intro t j
    rw [List.foldl_cons, ih, liveAt_updateNode]

theorem typeOf_foldl_unlink (cs : List Nat) : ∀ (t : Tree) (j : Nat),
    typeOf (cs.foldl (fun acc c => updateNode acc c unlinkFn) t) j = typeOf t j := by
  induction cs with
  | nil => intro t j; rfl
  | cons c cs ih =>
    intro t j
    rw [List.foldl_cons, ih, typeOf_updateNode_keep _ c unlinkFn j (fun d => rfl)]

theorem textContentList_nil (fuel : Nat) (t : Tree) :
    textContentList fuel t [] = "" := by
  cases fuel <;> rfl

theorem internalGetTextContent_eq (fuel : Nat) (t : Tree) (i : Nat) (d : NodeData)
    (h : getNode t i = some d) :
    internalGetTextContent (fuel + 1) t i =
      if d.nodeType = NodeType.TEXT_NODE then d.textPayload
      else textContentList fuel t d.childNodes := by
  unfold internalGetTextContent
  rw [h]

theorem textContentList_cons (fuel : Nat) (t : Tree) (c : Nat) (cs : List Nat) :
    textContentList (fuel + 1) t (c :: cs) =
      (match getNode t c with
       | none => ""
       | some d =>
         if d.nodeType = NodeType.TEXT_NODE then d.textPayload
         else textContentList fuel t d.childNodes) ++ textContentList fuel t cs := rfl

/-- C8: for a live node `i` of non-text type and a non-empty string `s`,
`setTextContent(i, s)` followed by `getTextContent(i)` returns exactly `s`
(at any recursion bound of at least 2: the new subtree has depth 2). -/
theorem setTextContent_roundTrip (t : Tree) (i : Nat) (d : NodeData) (s : String)
    (hi : getNode t i = some d)
    (hty : d.nodeType ≠ NodeType.TEXT_NODE)
    (hs : s ≠ "") (f : Nat) :
    internalGetTextContent (f + 2) (internalSetTextContent t i s) i = s := by
  simp only [internalSetTextContent, hi, if_neg hty, if_neg hs]
  set T1 := d.childNodes.foldl (fun acc c => updateNode acc c unlinkFn) t with hT1
  set T2 := updateNode T1 i (setChildrenFn []) with hT2
  set M := nextId T2 with hM
  set T3 := T2 ++ [(M, ⟨NodeType.TEXT_NODE, some i, [], docOf T2 i, 1, s⟩)] with hT3
  -- the node ids involved
  have hiM : i ≠ M := by
    have h1 : i < nextId t := lt_nextId_of_getNode_some hi
    have h2 : nextId T2 = nextId t := by
      rw [hT2, nextId_updateNode, hT1, nextId_foldl_unlink]
    omega
  -- the record stored at i after the children were cleared
  have hliveT1 : liveAt T1 i = true := by
    rw [hT1, liveAt_foldl_unlink]
    unfold liveAt
    rw [hi]
    rfl
  unfold liveAt at hliveT1
  obtain ⟨d1, hd1⟩ := Option.isSome_iff_exists.mp hliveT1
  have hd1ty : d1.nodeType = d.nodeType := by
    have h1 : typeOf T1 i = typeOf t i := by rw [hT1, typeOf_foldl_unlink]
    unfold typeOf at h1
    rw [hd1, hi] at h1
    simpa using h1
  have hT2i : getNode T2 i = some (setChildrenFn [] d1) :=
    getNode_updateNode_self _ hd1
  -- the fresh text child
  have hT3M : getNode T3 M = some ⟨NodeType.TEXT_NODE, some i, [], docOf T2 i, 1, s⟩ :=
    getNode_append_self (getNode_ge_nextId_none T2 (le_refl _))
  have hT3i : getNode T3 i = some (setChildrenFn [] d1) := by
    rw [hT3, getNode_append_ne hiM]
    exact hT2i
  -- the final record stored at i
  have hFi : getNode (updateNode T3 i (setChildrenFn [M])) i =
      some (setChildrenFn [M] (setChildrenFn [] d1)) :=
    getNode_updateNode_self _ hT3i
  have hFM : getNode (updateNode T3 i (setChildrenFn [M])) M =
      some ⟨NodeType.TEXT_NODE, some i, [], docOf T2 i, 1, s⟩ := by
    rw [getNode_updateNode_ne _ (fun hc => hiM hc.symm)]
    exact hT3M
  -- evaluate getTextContent
  have hnotext : (setChildrenFn [M] (setChildrenFn [] d1)).nodeType ≠ NodeType.TEXT_NODE := by
    show d1.nodeType ≠ NodeType.TEXT_NODE
    rw [hd1ty]
    exact hty
  show internalGetTextContent (f + 1 + 1) (updateNode T3 i (setChildrenFn [M])) i = s
  rw [internalGetTextContent_eq (f + 1) _ i _ hFi, if_neg hnotext]
  show textContentList (f + 1) (updateNode T3 i (setChildrenFn [M])) [M] = s
  rw [textContentList_cons f _ M [], hFM]
  simp [textContentList_nil, String.append_empty]

/-- Witness for C8: setting `"hi"` as the text content of a single detached
element and reading it back. -/
theorem setTextContent_roundTrip_witness :
    internalGetTextContent 2
      (internalSetTextContent [(0, ⟨NodeType.ELEMENT_NODE, none, [], none, 0, ""⟩)] 0 "hi")
      0 = "hi" :=
  setTextContent_roundTrip
    [(0, ⟨NodeType.ELEMENT_NODE, none, [], none, 0, ""⟩)] 0
    ⟨NodeType.ELEMENT_NODE, none, [], none, 0, ""⟩ "hi"
    (by decide) (by decide) (by decide) 0

/-! ### List lemmas for in-place replacement (C5) -/

theorem liveAt_insertEffect (t : Tree) (a b r j : Nat) :
    liveAt (insertEffect t a b r) j = liveAt t j := by
  simp only [insertEffect]
  rw [liveAt_condProp, liveAt_updateNode, liveAt_updateNode, liveAt_ensureDetached]

theorem mapReplace_of_not_mem {l : List Nat} {o n : Nat} (h : o ∉ l) :
    l.map (fun c => if c = o then n else c) = l := by
  induction l with
  | nil => rfl
  | cons x xs ih =>
    rw [List.map_cons]
    have hx : ¬(x = o) := fun hc => h (hc ▸ List.mem_cons_self x xs)
    rw [if_neg hx, ih (fun hm => h (List.mem_cons_of_mem _ hm))]

/-- Inserting `n` immediately before the (unique) occurrence of `o` and then
erasing `o` replaces `o` by `n` in place. -/
theorem insertBeforeList_erase (l : List Nat) (o n : Nat)
    (hmem : o ∈ l) (honce : l.count o ≤ 1) (hne : n ≠ o) :
    (insertBeforeList l o n).erase o =
      l.map (fun c => if c = o then n else c) := by
  induction l with
  | nil => exact absurd hmem (List.not_mem_nil o)
  | cons x xs ih =>
    by_cases hx : x = o
    · subst hx
      unfold insertBeforeList
      rw [if_pos rfl, List.map_cons, if_pos rfl]
      have hnx : (n == x) = false := by simp [hne]
      have hxx : (x == x) = true := by simp
      rw [List.erase_cons, hnx]
      simp only [Bool.false_eq_true, if_false]
      rw [List.erase_cons, hxx]
      simp only [if_true]
      have hnotin : x ∉ xs := by
        rw [List.count_cons_self] at honce
        exact List.count_eq_zero.mp (by omega)
      rw [mapReplace_of_not_mem hnotin]
    · unfold insertBeforeList
      rw [if_neg hx, List.map_cons, if_neg hx]
      have hxo : (x == o) = false := by simp [hx]
      rw [List.erase_cons, hxo]
      simp only [Bool.false_eq_true, if_false]
      have hmem' : o ∈ xs := by
        rcases List.mem_cons.mp hmem with h1 | h2
        · exact absurd h1.symm hx
        · exact h2
      have honce' : xs.count o ≤ 1 := by
        rw [List.count_cons] at honce
        omega
      rw [ih hmem' honce']

/-- C5 (amended): for a parent `a` with child `oldC` (occurring once), and a
replacement `newC` that is live, distinct from `oldC`, not currently a child
of `a`, and not on `a`'s ancestor chain, `replaceChild(a, newC, oldC)`
performs the insert-then-remove as one logical step: afterwards `a`'s child
list is unchanged except that `oldC` is replaced in place by `newC`,
`newC.parentNode == a`, `oldC.parentNode` is cleared, and the replaced (old)
node is returned. -/
theorem internalReplaceChild_spec (t : Tree) (a newC oldC : Nat)
    (da dn dold : NodeData)
    (ha : getNode t a = some da) (hn : getNode t newC = some dn)
    (ho : getNode t oldC = some dold)
    (hop : dold.parentNode = some a)
    (hmem : oldC ∈ da.childNodes)
    (honce : da.childNodes.count oldC ≤ 1)
    (hnp : dn.parentNode ≠ some a)
    (hne : newC ≠ oldC)
    (hcyc : newC ∉ ancestorsOf t.length t a) :
    childrenOf (internalReplaceChild t a newC oldC).1 a =
      da.childNodes.map (fun c => if c = oldC then newC else c) ∧
    parentOf (internalReplaceChild t a newC oldC).1 newC = some a ∧
    parentOf (internalReplaceChild t a newC oldC).1 oldC = none ∧
    (internalReplaceChild t a newC oldC).2 = .ok oldC := by
  have hna : newC ≠ a := liveAt_ne_of_not_mem_ancestors hcyc
  have hpo : parentOf t oldC = some a := by
    unfold parentOf; rw [ho]; exact hop
  have hIns : internalInsertBefore t a newC (some oldC) =
      (insertEffect t a newC oldC, .ok newC) := by
    unfold internalInsertBefore
    rw [ha, hn]
    simp [hcyc, hmem]
  have hlivea : liveAt t a = true := by unfold liveAt; rw [ha]; rfl
  have hliven : liveAt t newC = true := by unfold liveAt; rw [hn]; rfl
  have hpn : parentOf t newC = dn.parentNode := by
    unfold parentOf; rw [hn]; rfl
  have hEDa : childrenOf (ensureDetached t newC) a = da.childNodes := by
    rw [childrenOf_ensureDetached_nonparent t newC a (by rw [hpn]; exact hnp)]
    unfold childrenOf; rw [ha]; rfl
  have hInsCh : childrenOf (insertEffect t a newC oldC) a =
      insertBeforeList da.childNodes oldC newC := by
    rw [childrenOf_insertEffect_parent t a newC oldC hlivea,
      childrenOf_updateNode_keep _ newC (linkFn a) a (fun d => rfl), hEDa]
  have hInsPn : parentOf (insertEffect t a newC oldC) newC = some a :=
    parentOf_insertEffect_self t a newC oldC hliven hna
  have hInsPo : parentOf (insertEffect t a newC oldC) oldC = some a := by
    simp only [insertEffect]
    rw [parentOf_condProp,
      parentOf_updateNode_keep _ a (placeChildFn oldC newC) oldC (fun d => rfl),
      parentOf_updateNode_ne _ newC oldC (linkFn a) (Ne.symm hne),
      parentOf_ensureDetached_other t newC oldC (Ne.symm hne)]
    exact hpo
  have hInsLa : liveAt (insertEffect t a newC oldC) a = true := by
    rw [liveAt_insertEffect]; exact hlivea
  have hInsLo : liveAt (insertEffect t a newC oldC) oldC = true := by
    rw [liveAt_insertEffect]; unfold liveAt; rw [ho]; rfl
  unfold liveAt at hInsLa hInsLo
  obtain ⟨dIa, hdIa⟩ := Option.isSome_iff_exists.mp hInsLa
  obtain ⟨dIo, hdIo⟩ := Option.isSome_iff_exists.mp hInsLo
  have hdIop : dIo.parentNode = some a := by
    have h1 := hInsPo
    unfold parentOf at h1
    rw [hdIo] at h1
    simpa using h1
  have hRem : internalRemoveChild (insertEffect t a newC oldC) a oldC =
      (detachEffect (insertEffect t a newC oldC) a oldC, .ok oldC) := by
    unfold internalRemoveChild
    rw [hdIa, hdIo]
    simp [hdIop]
  have hred : internalReplaceChild t a newC oldC =
      (detachEffect (insertEffect t a newC oldC) a oldC, .ok oldC) := by
    unfold internalReplaceChild
    rw [if_pos hpo]
    simp only [hIns]
    simp [hRem]
  rw [hred]
  refine ⟨?_, ?_, parentOf_detachEffect_self _ a oldC, rfl⟩
  · show childrenOf (detachEffect (insertEffect t a newC oldC) a oldC) a = _
    rw [childrenOf_detachEffect_parent, hInsCh]
    exact insertBeforeList_erase da.childNodes oldC newC hmem honce hne
  · show parentOf (detachEffect (insertEffect t a newC oldC) a oldC) newC = some a
    rw [parentOf_detachEffect_other _ a oldC newC hne]
    exact hInsPn

/-- Witness for C5's amended statement: in `sampleForestTree`, replacing child
3 of node 2 by the detached node 1. -/
theorem internalReplaceChild_spec_witness :
    childrenOf (internalReplaceChild sampleForestTree 2 1 3).1 2 =
      [3].map (fun c => if c = 3 then 1 else c) ∧
    parentOf (internalReplaceChild sampleForestTree 2 1 3).1 1 = some 2 ∧
    parentOf (internalReplaceChild sampleForestTree 2 1 3).1 3 = none ∧
    (internalReplaceChild sampleForestTree 2 1 3).2 = .ok 3 :=
  internalReplaceChild_spec sampleForestTree 2 1 3
    ⟨NodeType.ELEMENT_NODE, none, [3], none, 0, ""⟩
    ⟨NodeType.ELEMENT_NODE, none, [], none, 0, ""⟩
    ⟨NodeType.ELEMENT_NODE, some 2, [], none, 1, ""⟩
    (by decide) (by decide) (by decide) (by decide) (by decide) (by decide)
    (by decide) (by decide) (by decide)

/-- Counterexample to C5 as stated: the claim quantifies over every node
`New`; for `New = A` (here node 0 with child 1) the operation inherits the
insert's cycle check and fails with `HierarchyError` — the child list keeps
`Old` and the operation does not return the old node. -/
theorem internalReplaceChild_counterexample :
    internalReplaceChild sampleChainTree 0 0 1 =
      (sampleChainTree, .error .HierarchyError) ∧
    (internalReplaceChild sampleChainTree 0 0 1).2 ≠ .ok 1 :=
  ⟨rfl, fun hc => Except.noConfusion hc⟩

theorem ptsFuel_cons (ty : NodeType) (pl : String) (kids rest : List PureTree) :
    ptsFuel (PureTree.mk ty pl kids :: rest) =
      max (ptsFuel kids) (ptsFuel rest) + 1 := by
  simp [ptsFuel]

theorem extractList_cons (fuel : Nat) (t : Tree) (c : Nat) (cs : List Nat) :
    extractList (fuel + 1) t (c :: cs) =
      match getNode t c with
      | none => none
      | some d =>
        match extractList fuel t d.childNodes, extractList fuel t cs with
        | some kids, some rest =>
          some (PureTree.mk d.nodeType d.textPayload kids :: rest)
        | _, _ => none := rfl

theorem extractList_nil (fuel : Nat) (t : Tree) :
    extractList fuel t [] = some [] := by
  cases fuel <;> rfl

theorem textContentList_of_repr {t : Tree} {ids : List Nat} {pts : List PureTree}
    (h : Repr t ids pts) :
    ∀ F, ptsFuel pts ≤ F → textContentList F t ids = PureTree.text.textsOf pts := by
  induction h with
  | nil =>
    intro F _
    rw [textContentList_nil]
    rfl
  | @cons i d ids ty pl kids rest hget hty hpl hkids hrest ihk ihr =>
    intro F hF
    rw [ptsFuel_cons] at hF
    cases F with
    | zero => omega
    | succ G =>
      have hFk : ptsFuel kids ≤ G := by omega
      have hFr : ptsFuel rest ≤ G := by omega
      rw [textContentList_cons, hget]
      show (if d.nodeType = NodeType.TEXT_NODE then d.textPayload
            else textContentList G t d.childNodes) ++ textContentList G t ids =
          PureTree.text.textsOf (PureTree.mk ty pl kids :: rest)
      rw [ihk G hFk, ihr G hFr, hty, hpl]
      rfl

/-- Stability: a representation only looks at nodes inside a `good` region
closed under children; if another tree agrees there, it represents the same
values. -/
theorem repr_stable {t t' : Tree} {good : Nat → Prop}
    (hag : ∀ j, good j → getNode t' j = getNode t j)
    (hcl : ∀ j d, good j → getNode t j = some d → ∀ c ∈ d.childNodes, good c) :
    ∀ {ids : List Nat} {pts : List PureTree},
      Repr t ids pts → (∀ j ∈ ids, good j) → Repr t' ids pts := by
  intro ids pts h
  induction h with
  | nil => intro _; exact Repr.nil
  | @cons i d ids ty pl kids rest hget hty hpl hkids hrest ihk ihr =>
    intro hgood
    have hgi : good i := hgood i (List.mem_cons_self i ids)
    exact Repr.cons (by rw [hag i hgi]; exact hget) hty hpl
      (ihk (hcl i d hgi hget))
      (ihr (fun j hj => hgood j (List.mem_cons_of_mem i hj)))

/-- A successful extraction is a representation. -/
theorem repr_of_extract : ∀ (fuel : Nat) (t : Tree) (l : List Nat)
    (pts : List PureTree), extractList fuel t l = some pts → Repr t l pts := by
  intro fuel
  induction fuel with
  | zero =>
    intro t l pts h
    cases l with
    | nil =>
      rw [extractList_nil] at h
      exact Option.some.inj h ▸ Repr.nil
    | cons c cs => exact Option.noConfusion h
  | succ f ih =>
    intro t l pts h
    cases l with
    | nil =>
      rw [extractList_nil] at h
      exact Option.some.inj h ▸ Repr.nil
    | cons c cs =>
      rw [extractList_cons] at h
      cases hg : getNode t c with
      | none => simp only [hg] at h; exact Option.noConfusion h
      | some d =>
        simp only [hg] at h
        cases hk : extractList f t d.childNodes with
        | none => simp only [hk] at h; exact Option.noConfusion h
        | some kids =>
          simp only [hk] at h
          cases hr : extractList f t cs with
          | none => simp only [hr] at h; exact Option.noConfusion h
          | some rest =>
            simp only [hr, Option.some.injEq] at h
            rw [← h]
            exact Repr.cons hg rfl rfl (ih t _ _ hk) (ih t _ _ hr)

/-- Inversion of a singleton extraction. -/
theorem extract_singleton_inv {F : Nat} {t : Tree} {i : Nat} {ty : NodeType}
    {pl : String} {kids : List PureTree}
    (h : extractList (F + 1) t [i] = some [PureTree.mk ty pl kids]) :
    ∃ d, getNode t i = some d ∧ d.nodeType = ty ∧ d.textPayload = pl ∧
      extractList F t d.childNodes = some kids := by
  rw [extractList_cons] at h
  cases hg : getNode t i with
  | none => simp only [hg] at h; exact Option.noConfusion h
  | some d =>
    simp only [hg] at h
    cases hk : extractList F t d.childNodes with
    | none => simp only [hk] at h; exact Option.noConfusion h
    | some kids' =>
      simp only [hk, extractList_nil, Option.some.injEq, List.cons.injEq,
        PureTree.mk.injEq] at h
      obtain ⟨⟨hty, hpl, hkids⟩, -⟩ := h
      exact ⟨d, rfl, hty, hpl, hkids ▸ hk⟩

theorem reifyList_nil (t : Tree) (next pc : Nat) :
    reifyList t next [] pc = (t, next) := by
  rw [reifyList]

theorem reifyList_cons (t : Tree) (next pc : Nat) (ty : NodeType) (pl : String)
    (kids rest : List PureTree) :
    reifyList t next (PureTree.mk ty pl kids :: rest) pc =
      reifyList
        (reifyList
          (updateNode (t ++ [(next, ⟨ty, some pc, [], none, 1, pl⟩)]) pc
            (pushChildFn next))
          (next + 1) kids next).1
        (reifyList
          (updateNode (t ++ [(next, ⟨ty, some pc, [], none, 1, pl⟩)]) pc
            (pushChildFn next))
          (next + 1) kids next).2
        rest pc := by
  rw [reifyList]

/-- Correctness of the rebuild half of the clone: fresh ids only, old nodes
other than the clone parent untouched, the clone parent's child list extended
by the new ids in order, the new region self-contained, and the new ids
representing exactly the pure subtrees being reified. -/
theorem reifyList_spec : ∀ (pts : List PureTree) (t : Tree) (next pc : Nat),
    (∀ j d, getNode t j = some d → j < next) → pc < next →
    next ≤ (reifyList t next pts pc).2 ∧
    (∀ j d, getNode (reifyList t next pts pc).1 j = some d →
      j < (reifyList t next pts pc).2) ∧
    (∀ j, j < next → j ≠ pc →
      getNode (reifyList t next pts pc).1 j = getNode t j) ∧
    (∀ j d, next ≤ j → getNode (reifyList t next pts pc).1 j = some d →
      ∀ c ∈ d.childNodes, next ≤ c ∧ c < (reifyList t next pts pc).2) ∧
    (∀ dpc, getNode t pc = some dpc → ∃ newIds,
      getNode (reifyList t next pts pc).1 pc =
        some (setChildrenFn (dpc.childNodes ++ newIds) dpc) ∧
      (∀ j ∈ newIds, next ≤ j ∧ j < (reifyList t next pts pc).2) ∧
      Repr (reifyList t next pts pc).1 newIds pts)
  | [], t, next, pc, hbound, hpc => by
    rw [reifyList_nil]
    refine ⟨le_refl _, ?_, ?_, ?_, ?_⟩
    · intro j d hj
      exact hbound j d hj
    · intro j _ _
      rfl
    · intro j d hjge hget c hc
      exact absurd (hbound j d hget) (by omega)
    · intro dpc hdpc
      refine ⟨[], ?_, ?_, Repr.nil⟩
      · rw [List.append_nil]
        exact hdpc
      · intro j hj
        exact absurd hj (List.not_mem_nil j)
  | PureTree.mk ty pl kids :: rest, t, next, pc, hbound, hpc => by
    rw [reifyList_cons]
    have hgtme : getNode t next = none := by
      cases hg : getNode t next with
      | none => rfl
      | some d => exact absurd (hbound _ _ hg) (by omega)
    set t1 : Tree := t ++ [(next, ⟨ty, some pc, [], none, 1, pl⟩)] with ht1
    have ht1me : getNode t1 next = some ⟨ty, some pc, [], none, 1, pl⟩ :=
      getNode_append_self hgtme
    have ht1other : ∀ j, j ≠ next → getNode t1 j = getNode t j :=
      fun j hj => getNode_append_ne hj
    set t2 : Tree := updateNode t1 pc (pushChildFn next) with ht2
    have hpcne : pc ≠ next := by omega
    have ht2me : getNode t2 next = some ⟨ty, some pc, [], none, 1, pl⟩ := by
      rw [ht2, getNode_updateNode_ne _ (Ne.symm hpcne)]
      exact ht1me
    have ht2other : ∀ j, j ≠ pc → j ≠ next → getNode t2 j = getNode t j := by
      intro j hjpc hjme
      rw [ht2, getNode_updateNode_ne _ hjpc]
      exact ht1other j hjme
    have hbound2 : ∀ j d, getNode t2 j = some d → j < next + 1 := by
      intro j d hj
      by_cases hjpc : j = pc
      · omega
      · by_cases hjme : j = next
        · omega
        · rw [ht2other j hjpc hjme] at hj
          have := hbound j d hj
          omega
    obtain ⟨c1, c2, c3, c4, c5⟩ :=
      reifyList_spec kids t2 (next + 1) next hbound2 (by omega)
    set r1 := reifyList t2 (next + 1) kids next with hr1
    obtain ⟨d1, d2, d3, d4, d5⟩ := reifyList_spec rest r1.1 r1.2 pc c2 (by omega)
    set r2 := reifyList r1.1 r1.2 rest pc with hr2
    obtain ⟨newK, hrecK, hbK, hreprK⟩ := c5 ⟨ty, some pc, [], none, 1, pl⟩ ht2me
    have hrecMe2 : getNode r2.1 next =
        some (setChildrenFn ([] ++ newK) ⟨ty, some pc, [], none, 1, pl⟩) := by
      rw [d3 next (by omega) (by omega)]
      exact hrecK
    refine ⟨by omega, d2, ?_, ?_, ?_⟩
    · -- frame for old ids
      intro j hj hjpc
      rw [d3 j (by omega) hjpc, c3 j (by omega) (by omega)]
      exact ht2other j hjpc (by omega)
    · -- region closure
      intro j d hjge hget c hc
      by_cases hjr1 : r1.2 ≤ j
      · obtain ⟨hc1, hc2⟩ := d4 j d hjr1 hget c hc
        exact ⟨by omega, hc2⟩
      · have hjpc : j ≠ pc := by omega
        have hget1 : getNode r1.1 j = some d := by
          rw [← d3 j (by omega) hjpc]
          exact hget
        by_cases hjme : j = next
        · subst hjme
          rw [hget1] at hrecK
          have hd := Option.some.inj hrecK
          rw [hd] at hc
          have hcK : c ∈ newK := by
            simpa [setChildrenFn] using hc
          obtain ⟨hcl, hcu⟩ := hbK c hcK
          exact ⟨by omega, by omega⟩
        · obtain ⟨hcl, hcu⟩ := c4 j d (by omega) hget1 c hc
          exact ⟨by omega, by omega⟩
    · -- the clone parent and the representation
      intro dpc hdpc
      have h2pc : getNode t2 pc = some (pushChildFn next dpc) := by
        rw [ht2]
        apply getNode_updateNode_self
        rw [ht1other pc hpcne]
        exact hdpc
      have hr1pc : getNode r1.1 pc = some (pushChildFn next dpc) := by
        rw [c3 pc (by omega) (by omega)]
        exact h2pc
      obtain ⟨newR, hrecR, hbR, hreprR⟩ := d5 (pushChildFn next dpc) hr1pc
      refine ⟨next :: newR, ?_, ?_, ?_⟩
      · rw [hrecR]
        congr 1
        simp [setChildrenFn, pushChildFn, List.append_assoc]
      · intro j hj
        rcases List.mem_cons.mp hj with h1 | h2
        · subst h1
          exact ⟨le_refl _, by omega⟩
        · obtain ⟨hl, hu⟩ := hbR j h2
          exact ⟨by omega, hu⟩
      · -- Repr r2.1 (next :: newR) (mk ty pl kids :: rest)
        have hreprK2 : Repr r2.1 newK kids := by
          exact @repr_stable r1.1 r2.1 (fun j => next + 1 ≤ j ∧ j < r1.2)
            (fun j hj => d3 j hj.2 (by omega))
            (fun j d hj hget c hc => c4 j d hj.1 hget c hc)
            newK kids hreprK hbK
        exact Repr.cons hrecMe2 rfl rfl hreprK2 hreprR

theorem ancestorsOf_parent_none (F : Nat) (t : Tree) (i : Nat)
    (hp : parentOf t i = none) : ancestorsOf F t i = [i] := by
  cases F with
  | zero => rfl
  | succ G =>
    unfold ancestorsOf
    rw [hp]

theorem isConnected_of_detached (F : Nat) (t : Tree) (i : Nat)
    (hp : parentOf t i = none) (hd : docOf t i = none) :
    isConnected F t i = false := by
  unfold isConnected
  rw [ancestorsOf_parent_none F t i hp]
  simp [hd]

/-- C7: when the subtree at `src` extracts to the pure value
`PureTree.mk ty pl kids`, then for every `deep` flag the clone is a fresh node
(id `nextId t`) with document association none and `isConnected` false at
every recursion bound, and the deep clone's text content equals the source's
text content (at every sufficient recursion bound). -/
theorem cloneNode_spec (t : Tree) (src : Nat) (ty : NodeType) (pl : String)
    (kids : List PureTree)
    (hx : extractList (t.length + 1) t [src] = some [PureTree.mk ty pl kids]) :
    (∀ deep : Bool, ∃ t' : Tree,
       cloneNode t src deep = (t', some (nextId t)) ∧
       docOf t' (nextId t) = none ∧
       ∀ F : Nat, isConnected F t' (nextId t) = false) ∧
    (∀ F : Nat, ptsFuel kids ≤ F →
       internalGetTextContent (F + 1) (cloneNode t src true).1 (nextId t) =
         internalGetTextContent (F + 1) t src) := by
  obtain ⟨dsrc, hdsrc, hdty, hdpl, hkx⟩ := extract_singleton_inv hx
  set me := nextId t with hme
  set t1 : Tree := t ++ [(me, ⟨ty, none, [], none, 0, pl⟩)] with ht1
  have hcloneT : cloneNode t src true = ((reifyList t1 (me + 1) kids me).1, some me) := by
    unfold cloneNode
    rw [hx]
    rfl
  have hcloneF : cloneNode t src false = (t1, some me) := by
    unfold cloneNode
    rw [hx]
    rfl
  have hgtme : getNode t me = none := getNode_ge_nextId_none t (le_refl _)
  have ht1me : getNode t1 me = some ⟨ty, none, [], none, 0, pl⟩ :=
    getNode_append_self hgtme
  have hbound1 : ∀ j d, getNode t1 j = some d → j < me + 1 := by
    intro j d hj
    by_cases hjme : j = me
    · omega
    · rw [ht1, getNode_append_ne hjme] at hj
      have := lt_nextId_of_getNode_some hj
      omega
  obtain ⟨e1, e2, e3, e4, e5⟩ :=
    reifyList_spec kids t1 (me + 1) me hbound1 (by omega)
  obtain ⟨newIds, hrec, hbis, hrepr⟩ := e5 ⟨ty, none, [], none, 0, pl⟩ ht1me
  constructor
  · intro deep
    cases deep
    · refine ⟨t1, hcloneF, ?_, ?_⟩
      · show docOf t1 me = none
        unfold docOf
        rw [ht1me]
        rfl
      · intro F
        refine isConnected_of_detached F t1 me ?_ ?_
        · unfold parentOf; rw [ht1me]; rfl
        · unfold docOf; rw [ht1me]; rfl
    · refine ⟨(reifyList t1 (me + 1) kids me).1, hcloneT, ?_, ?_⟩
      · show docOf (reifyList t1 (me + 1) kids me).1 me = none
        unfold docOf
        rw [hrec]
        rfl
      · intro F
        refine isConnected_of_detached F _ me ?_ ?_
        · unfold parentOf; rw [hrec]; rfl
        · unfold docOf; rw [hrec]; rfl
  · intro F hF
    rw [hcloneT]
    show internalGetTextContent (F + 1) (reifyList t1 (me + 1) kids me).1 me =
      internalGetTextContent (F + 1) t src
    rw [internalGetTextContent_eq F _ me _ hrec,
      internalGetTextContent_eq F t src dsrc hdsrc]
    show (if ty = NodeType.TEXT_NODE then pl
          else textContentList F (reifyList t1 (me + 1) kids me).1 ([] ++ newIds)) =
        (if dsrc.nodeType = NodeType.TEXT_NODE then dsrc.textPayload
          else textContentList F t dsrc.childNodes)
    rw [hdty, hdpl]
    by_cases hty : ty = NodeType.TEXT_NODE
    · rw [if_pos hty, if_pos hty]
    · rw [if_neg hty, if_neg hty]
      have h1 := textContentList_of_repr hrepr F hF
      have h2 := textContentList_of_repr
        (repr_of_extract _ t dsrc.childNodes kids hkx) F hF
      rw [List.nil_append, h1, h2]

/-- Witness for C7: deep-cloning the element of `sampleTextTree` (one text
child `"x"`): the clone (id 2) is detached with no document association and
carries the same text content. -/
theorem cloneNode_spec_witness :
    docOf (cloneNode sampleTextTree 0 true).1 (nextId sampleTextTree) = none ∧
    isConnected 3 (cloneNode sampleTextTree 0 true).1 (nextId sampleTextTree) = false ∧
    internalGetTextContent 2 (cloneNode sampleTextTree 0 true).1 (nextId sampleTextTree) =
      internalGetTextContent 2 sampleTextTree 0 := by
  have h := cloneNode_spec sampleTextTree 0 NodeType.ELEMENT_NODE ""
    [PureTree.mk NodeType.TEXT_NODE "x" []] rfl
  obtain ⟨t', hcl, hdoc, hconn⟩ := h.1 true
  have h1 : (cloneNode sampleTextTree 0 true).1 = t' := by rw [hcl]
  exact ⟨by rw [h1]; exact hdoc, by rw [h1]; exact hconn 3,
    h.2 1 (by rw [ptsFuel_cons]; simp [ptsFuel])⟩

end Kraken
